import Mathlib

/-!
# Verification of the authentication core (`auth.py`)

Shallow embedding, in Lean 4, of the authentication, session, rate-limiting
and request-signature layer of the goose-query-expert-bot repository
(`src/auth.py`), together with proofs and refutations of the specification's
claims about it.

Conventions of the embedding:
* Python `bytes` values are `List Nat` (each element a byte value).
* Python's wall clock `int(time.time())` becomes an explicit `Nat`/`Int`
  parameter threaded through the operations.
* Redis data structures are explicit functional states: a sorted set is an
  association list of `(member, score)` pairs with unique members, a hash is
  an association list of string pairs, a plain set is a list.
* `async` methods become pure state-passing functions; exceptions that the
  Python code can raise are surfaced as `Except`/`Option` results.
* HMAC-SHA256 is idealized as a collision-free keyed hash (see
  `hmacSha256Hex` below); everything else is translated directly.
-/

/-! ## Python `int(str)` parsing (used by `verify_signature` for the timestamp)

`int(timestamp)` strips surrounding whitespace, accepts an optional sign and
then a nonempty run of decimal digits, raising `ValueError` otherwise
(`None` here).  (Underscore digit separators, an exotic corner of the Python
grammar never produced by Slack timestamps, are not modelled.) -/

def isPySpace (c : Char) : Bool :=
  c = ' ' || c = '\t' || c = '\n' || c = '\r' || c = '\x0b' || c = '\x0c'

def isDecDigit (c : Char) : Bool :=
  '0' ≤ c && c ≤ '9'

def decDigitsVal (cs : List Char) : Nat :=
  cs.foldl (fun a c => a * 10 + (c.toNat - 48)) 0

def decNat? (cs : List Char) : Option Nat :=
  if cs ≠ [] && cs.all isDecDigit then some (decDigitsVal cs) else none

def pyInt? (s : String) : Option Int :=
  let cs := ((s.data.dropWhile isPySpace).reverse.dropWhile isPySpace).reverse
  match cs with
  | '+' :: ds => (decNat? ds).map Int.ofNat
  | '-' :: ds => (decNat? ds).map (fun n => -(n : Int))
  | ds => (decNat? ds).map Int.ofNat

/-! ## Strict UTF-8 validity

Python's `bytes.decode()` (with its default `utf-8`/`strict` arguments)
succeeds exactly on well-formed UTF-8: no continuation-byte errors, no
overlong forms, no surrogate code points, nothing above U+10FFFF.  Only
validity matters to `verify_signature`: the decoded text is immediately
re-encoded, and UTF-8 round-trips (`encode (decode b) = b`), so the verifier
below keeps working on the original bytes once validity is established. -/

def isUtf8Cont (b : Nat) : Bool := 0x80 ≤ b && b ≤ 0xBF

/-- Fuel-indexed worker (structural recursion on the fuel keeps the function
kernel-computable).  Each step consumes at least one byte and one unit of
fuel, so any fuel ≥ the list length gives the intended semantics. -/
def isValidUtf8Fuel : Nat → List Nat → Bool
  | 0, l => l.isEmpty
  | _ + 1, [] => true
  | f + 1, b :: rest =>
    if b ≤ 0x7F then isValidUtf8Fuel f rest
    else if 0xC2 ≤ b && b ≤ 0xDF then
      match rest with
      | c1 :: r => isUtf8Cont c1 && isValidUtf8Fuel f r
      | [] => false
    else if b = 0xE0 then
      match rest with
      | c1 :: c2 :: r => (0xA0 ≤ c1 && c1 ≤ 0xBF) && isUtf8Cont c2 && isValidUtf8Fuel f r
      | _ => false
    else if (0xE1 ≤ b && b ≤ 0xEC) || b = 0xEE || b = 0xEF then
      match rest with
      | c1 :: c2 :: r => isUtf8Cont c1 && isUtf8Cont c2 && isValidUtf8Fuel f r
      | _ => false
    else if b = 0xED then
      match rest with
      | c1 :: c2 :: r => (0x80 ≤ c1 && c1 ≤ 0x9F) && isUtf8Cont c2 && isValidUtf8Fuel f r
      | _ => false
    else if b = 0xF0 then
      match rest with
      | c1 :: c2 :: c3 :: r =>
          (0x90 ≤ c1 && c1 ≤ 0xBF) && isUtf8Cont c2 && isUtf8Cont c3 && isValidUtf8Fuel f r
      | _ => false
    else if 0xF1 ≤ b && b ≤ 0xF3 then
      match rest with
      | c1 :: c2 :: c3 :: r =>
          isUtf8Cont c1 && isUtf8Cont c2 && isUtf8Cont c3 && isValidUtf8Fuel f r
      | _ => false
    else if b = 0xF4 then
      match rest with
      | c1 :: c2 :: c3 :: r =>
          (0x80 ≤ c1 && c1 ≤ 0x8F) && isUtf8Cont c2 && isUtf8Cont c3 && isValidUtf8Fuel f r
      | _ => false
    else false

def isValidUtf8 (l : List Nat) : Bool := isValidUtf8Fuel l.length l

/-- UTF-8 bytes of a string, as `List Nat` (Python `str.encode()`). -/
def strBytes (s : String) : List Nat :=
  s.toUTF8.data.toList.map (fun b => b.toNat)

/-! ## Idealized HMAC-SHA256

`hmac.new(secret, msg, hashlib.sha256).hexdigest()` is a call into the
standard library, not repository code.  It is modelled as an *ideal* keyed
hash: a function that is injective in the message for each fixed key
(collision-free), which is precisely the idealization under which the
specification's "flipping any byte changes the verdict" property is stated.
The encoding below (unary per byte, with separators) makes injectivity
provable while remaining executable. -/

def unaryByte (n : Nat) : List Char :=
  List.replicate n 'I' ++ [';']

def unaryBytes : List Nat → List Char
  | [] => []
  | n :: ns => unaryByte n ++ unaryBytes ns

def hmacSha256Hex (key msg : List Nat) : String :=
  String.mk ('h' :: (unaryBytes key ++ '|' :: unaryBytes msg))

/-! ## `SlackSignatureVerifier.verify_signature` (`auth.py` lines 448-472) -/

/-- Bytes of the canonical string `f"v0:{timestamp}:{request_body.decode()}"`
re-encoded, for a `request_body` already known to be valid UTF-8 (UTF-8
encoding of a concatenation is the concatenation of the encodings, and
`encode (decode b) = b`). -/
def sigBase (timestamp : String) (bodyBytes : List Nat) : List Nat :=
  strBytes ("v0:" ++ timestamp ++ ":") ++ bodyBytes

/-- The correctly computed signature for a body/timestamp pair:
`"v0=" + hmac.new(secret, base, sha256).hexdigest()`. -/
def slackSign (secret : List Nat) (timestamp : String) (bodyBytes : List Nat) : String :=
  "v0=" ++ hmacSha256Hex secret (sigBase timestamp bodyBytes)

/-- Whether every character of the string is ASCII (`hmac.compare_digest`
accepts `str` arguments only when both are ASCII-only). -/
def isAsciiStr (s : String) : Bool :=
  s.data.all (fun c => c.toNat ≤ 0x7F)

/-- `hmac.compare_digest(a, b)` on two `str` arguments: CPython raises
`TypeError` ("comparing strings with non-ASCII characters is not
supported") when either string contains a non-ASCII character; otherwise
the result is equality of the strings (the constant-time aspect has no
functional content). -/
def compare_digest (a b : String) : Except String Bool :=
  if isAsciiStr a && isAsciiStr b then .ok (a = b) else .error "TypeError"

/-- `SlackSignatureVerifier.verify_signature(request_body, timestamp, signature)`.
`now` is `int(time.time())`.  Control flow mirrors the Python source:
1. falsy `timestamp`/`signature` (empty string) → `False`;
2. `int(timestamp)` failure (`ValueError`, caught) → `False`;
3. replay window: `abs(now - ts) > 300` → `False`;
4. `request_body.decode()` — **uncaught** `UnicodeDecodeError` on invalid
   UTF-8, surfaced here as `Except.error`;
5. otherwise `hmac.compare_digest(computed_signature, signature)` — whose
   **uncaught** `TypeError` on a non-ASCII `signature` argument is also
   surfaced as `Except.error` (the computed side, `"v0=" + hexdigest`, is
   always ASCII). -/
def verify_signature (secret : List Nat) (request_body : List Nat)
    (timestamp signature : String) (now : Int) : Except String Bool :=
  if timestamp = "" ∨ signature = "" then .ok false
  else
    match pyInt? timestamp with
    | none => .ok false
    | some ts =>
      if 300 < (now - ts).natAbs then .ok false
      else if isValidUtf8 request_body then
        compare_digest (slackSign secret timestamp request_body) signature
      else .error "UnicodeDecodeError"

deriving instance DecidableEq for Except

/-! ## `RateLimiter` (`auth.py` lines 325-370)

The Redis sorted set behind `rate_limit:{user_id}` is modelled as an
association list of `(member, score)` pairs with unique members; `ZADD`
updates the score of an existing member or appends a fresh one,
`ZREMRANGEBYSCORE min max` removes members with score in the **inclusive**
range `[min, max]`, `ZCARD` is the length.  The per-key `EXPIRE` refresh
only deletes idle keys wholesale and is subsumed by the pruning these
claims exercise, so it is not modelled. -/

structure RateConfig where
  rate_limit_requests : Nat
  rate_limit_window_seconds : Nat
deriving DecidableEq

structure ZSet where
  entries : List (String × Nat)
deriving DecidableEq

def zadd (s : ZSet) (member : String) (score : Nat) : ZSet :=
  if s.entries.any (fun e => e.1 = member) then
    ⟨s.entries.map (fun e => if e.1 = member then (member, score) else e)⟩
  else ⟨s.entries ++ [(member, score)]⟩

def zremrangebyscore (s : ZSet) (mn mx : Int) : ZSet :=
  ⟨s.entries.filter (fun e => !(mn ≤ (e.2 : Int) && (e.2 : Int) ≤ mx))⟩

def zcard (s : ZSet) : Nat := s.entries.length

/-- `RateLimiter.is_allowed(user_id)` acting on the user's sorted set.
`now = int(time.time())`.  Returns the verdict and the new set state. -/
def is_allowed (cfg : RateConfig) (s : ZSet) (now : Nat) : Bool × ZSet :=
  let pruned := zremrangebyscore s 0 ((now : Int) - cfg.rate_limit_window_seconds)
  if cfg.rate_limit_requests ≤ zcard pruned then (false, pruned)
  else (true, zadd pruned (toString now) now)

structure RateInfo where
  requests_made : Nat
  requests_allowed : Nat
  window_seconds : Nat
  reset_time : Nat
deriving DecidableEq

/-- `RateLimiter.get_rate_limit_info(user_id)`: the returned dictionary and
the (possibly pruned!) new state of the user's sorted set. -/
def get_rate_limit_info (cfg : RateConfig) (s : ZSet) (now : Nat) : RateInfo × ZSet :=
  let pruned := zremrangebyscore s 0 ((now : Int) - cfg.rate_limit_window_seconds)
  ({ requests_made := zcard pruned,
     requests_allowed := cfg.rate_limit_requests,
     window_seconds := cfg.rate_limit_window_seconds,
     reset_time := now + cfg.rate_limit_window_seconds }, pruned)

/-- A sequence of `is_allowed` calls at the given times. -/
def runCalls (cfg : RateConfig) : ZSet → List Nat → List Bool × ZSet
  | s, [] => ([], s)
  | s, t :: ts =>
    let r := is_allowed cfg s t
    let rest := runCalls cfg r.2 ts
    (r.1 :: rest.1, rest.2)

/-- The members written by `is_allowed` are `str(current_time)`. -/
def encTimes (l : List Nat) : List (String × Nat) :=
  l.map (fun t => (toString t, t))

/-! ## Injectivity of `str(n)` (`Nat.repr`)

`is_allowed` stores the member `str(current_time)`; several claims need that
distinct seconds give distinct members.  Core's `Nat.repr` runs through the
fuelled `Nat.toDigitsCore`; we relate it to a direct recursion `decChars`
and prove that injective. -/

def decChars (n : Nat) : List Char :=
  if n < 10 then [Nat.digitChar n]
  else decChars (n / 10) ++ [Nat.digitChar (n % 10)]
termination_by n
decreasing_by exact Nat.div_lt_self (by omega) (by omega)

/-! ## `SessionManager` (`auth.py` lines 180-322)

One identity's sessions (all Redis keys involved are namespaced by the
user id).  State: `session:{id}` records, reduced to the `created_at` field
(the only field eviction reads), plus the `user_sessions:{user_id}` set.
Session ids are uuid4 values, modelled as naturals handed in by the caller
(`runCreates` below uses the creation index: fresh and distinct, which is
what uuid4 provides).  `created_at` is `datetime.now()` at creation.
Record TTLs only remove idle sessions and none of the claims exercises
them, so they are not modelled. -/

structure SessStore where
  data : List (Nat × Nat)
  index : List Nat
deriving DecidableEq

/-- Redis `GET session:{id}` (the decrypted record's `created_at`). -/
def lookupData : List (Nat × Nat) → Nat → Option Nat
  | [], _ => none
  | (k, v) :: r, sid => if k = sid then some v else lookupData r sid

/-- Redis `SETEX session:{id}` — overwrite or append. -/
def setData (l : List (Nat × Nat)) (k v : Nat) : List (Nat × Nat) :=
  if l.any (fun e => e.1 = k) then l.map (fun e => if e.1 = k then (k, v) else e)
  else l ++ [(k, v)]

/-- Redis `SADD user_sessions:{user_id} sid`. -/
def saddIndex (l : List Nat) (sid : Nat) : List Nat :=
  if l.contains sid then l else l ++ [sid]

/-- Stable insertion into a list ascending by creation time. -/
def insertByTime (x : Nat × Nat) : List (Nat × Nat) → List (Nat × Nat)
  | [] => [x]
  | y :: ys => if x.2 ≤ y.2 then x :: y :: ys else y :: insertByTime x ys

/-- Python's stable `session_times.sort(key=lambda x: x[1])`. -/
def sortByTime : List (Nat × Nat) → List (Nat × Nat)
  | [] => []
  | x :: xs => insertByTime x (sortByTime xs)

/-- `SessionManager._cleanup_user_sessions(user_id)`: if the index holds
more than `max_sessions_per_user` ids, fetch each indexed session's
`created_at` (skipping ids whose record is gone), sort ascending by
creation time, and delete the oldest `count − max` records from both the
data keys and the index. -/
def cleanup_user_sessions (maxS : Nat) (st : SessStore) : SessStore :=
  if maxS < st.index.length then
    let session_times := st.index.filterMap
      (fun sid => (lookupData st.data sid).map (fun t => (sid, t)))
    let sorted := sortByTime session_times
    let toRemove := (sorted.take (session_times.length - maxS)).map (fun p => p.1)
    { data := st.data.filter (fun e => !(toRemove.contains e.1)),
      index := st.index.filter (fun sid => !(toRemove.contains sid)) }
  else st

/-- `SessionManager.create_session(user_context)`: store the record, add the
id to the user's session set, then run eviction. -/
def create_session (maxS : Nat) (st : SessStore) (sid now : Nat) : SessStore :=
  cleanup_user_sessions maxS
    { data := setData st.data sid now, index := saddIndex st.index sid }

/-- `n` sequential `create_session` calls for one identity: the `i`-th call
(0-based) uses fresh session id `i` at creation time `i` (strictly
increasing clock). -/
def runCreates (maxS : Nat) : Nat → SessStore
  | 0 => ⟨[], []⟩
  | n + 1 => create_session maxS (runCreates maxS n) n n

/-! ## `JWTManager` (`auth.py` lines 124-177)

Claims as in `generate_token`'s payload dict.  The HS256 signature is
idealized: a `SignedToken` carries the secret it was signed with, and
verification succeeds exactly when that matches the verifier's secret —
any tampering with a real token's payload invalidates its HMAC signature,
which this models as a secret mismatch.  Timestamps are whole seconds
(`Int`); `uuid4()` and `datetime.now()` become explicit arguments. -/

structure UserContext where
  user_id : String
  slack_user_id : String
  email : Option String := none
  full_name : Option String := none
  ldap_id : Option String := none
  roles : List String := []
  permissions : List String := []
  is_active : Bool := true
deriving DecidableEq

structure TokenPayload where
  user_id : String
  slack_user_id : String
  email : Option String
  roles : List String
  permissions : List String
  iat : Int
  exp : Int
  jti : String
deriving DecidableEq

structure SignedToken where
  payload : TokenPayload
  sig_secret : String
deriving DecidableEq

/-- `JWTManager.generate_token(user_context)`; `now` is `datetime.now()`,
`jti` the fresh `uuid4()`. -/
def generate_token (secret : String) (expiration_hours : Int) (now : Int)
    (jti : String) (uc : UserContext) : SignedToken :=
  { payload :=
      { user_id := uc.user_id
        slack_user_id := uc.slack_user_id
        email := uc.email
        roles := uc.roles
        permissions := uc.permissions
        iat := now
        exp := now + expiration_hours * 3600
        jti := jti }
    sig_secret := secret }

/-- `JWTManager.verify_token(token)`: `jwt.decode` checks the signature
(`InvalidTokenError` → `None`) and then the `exp` claim
(`ExpiredSignatureError` → `None`); on success the decoded payload. -/
def verify_token (secret : String) (now : Int) (t : SignedToken) : Option TokenPayload :=
  if t.sig_secret ≠ secret then none
  else if t.payload.exp ≤ now then none
  else some t.payload

/-- `JWTManager.refresh_token(token)`: verify, then rebuild a `UserContext`
from the payload and issue a fresh token (new expiry, new `jti`). -/
def refresh_token (secret : String) (expiration_hours : Int) (now : Int)
    (jti : String) (t : SignedToken) : Option SignedToken :=
  match verify_token secret now t with
  | none => none
  | some p =>
    some (generate_token secret expiration_hours now jti
      { user_id := p.user_id
        slack_user_id := p.slack_user_id
        email := p.email
        roles := p.roles
        permissions := p.permissions })

/-! ## `UserMapper.get_mapping` and `AuthSystem.authenticate_user`
(`auth.py` lines 410-422 and 586-609)

A Redis hash is an open string-to-string map, modelled as an association
list; the store maps hash keys to hashes.  `HGETALL` of a missing key
returns the empty dict (in Redis a hash with no fields does not exist).
`get_mapping` returns `None` exactly on that empty result; the `json.loads`
of the `roles`/`permissions` fields only reshapes those two values, so the
resolved context below keeps their stored JSON text.  (`mapping
["internal_user_id"]` is a plain subscript — `hashGet` returns an `Option`,
`none` marking the `KeyError` that a hash lacking the field would raise;
every hash written by `create_mapping` has it.)  `authenticate_user` builds
the context from the mapping and opens a session (modelled separately, see
`create_session`; it does not affect the `None` outcome). -/

def hashGet (h : List (String × String)) (field : String) : Option String :=
  (h.find? (fun e => e.1 == field)).map (fun e => e.2)

def hgetall (store : List (String × List (String × String))) (key : String) :
    List (String × String) :=
  ((store.find? (fun e => e.1 == key)).map (fun e => e.2)).getD []

def get_mapping (store : List (String × List (String × String)))
    (slack_user_id : String) : Option (List (String × String)) :=
  let mapping_data := hgetall store ("user_mapping:" ++ slack_user_id)
  if mapping_data.isEmpty then none else some mapping_data

structure ResolvedContext where
  user_id : Option String
  slack_user_id : String
  email : Option String
  full_name : Option String
  ldap_id : Option String
  roles_json : Option String
  permissions_json : Option String
deriving DecidableEq

/-- `AuthSystem.authenticate_user(slack_user_id)` up to its return value:
`None` iff the mapping lookup failed; otherwise the `UserContext` built
from the mapping's fields.  No activity flag is read anywhere. -/
def authenticate_user (store : List (String × List (String × String)))
    (slack_user_id : String) : Option ResolvedContext :=
  match get_mapping store slack_user_id with
  | none => none
  | some mapping =>
    some
      { user_id := hashGet mapping "internal_user_id"
        slack_user_id := slack_user_id
        email := hashGet mapping "email"
        full_name := hashGet mapping "full_name"
        ldap_id := hashGet mapping "ldap_id"
        roles_json := hashGet mapping "roles"
        permissions_json := hashGet mapping "permissions" }

/-! ## Theorems -/

/-! ## Injectivity of the idealized HMAC -/

theorem unary_sep_inj : ∀ (x y : Nat) (r s : List Char),
    List.replicate x 'I' ++ ';' :: r = List.replicate y 'I' ++ ';' :: s →
    x = y ∧ r = s := by
  intro x
  induction x with
  | zero =>
    intro y r s h
    cases y with
    | zero => simpa using h
    | succ y =>
      rw [List.replicate_succ] at h
      simp only [List.replicate, List.nil_append, List.cons_append,
        List.cons.injEq] at h
      exact absurd h.1 (by decide)
  | succ x ih =>
    intro y r s h
    cases y with
    | zero =>
      rw [List.replicate_succ] at h
      simp only [List.replicate, List.nil_append, List.cons_append,
        List.cons.injEq] at h
      exact absurd h.1 (by decide)
    | succ y =>
      rw [List.replicate_succ, List.replicate_succ] at h
      simp only [List.cons_append, List.cons.injEq, true_and] at h
      obtain ⟨hxy, hrs⟩ := ih y r s h
      exact ⟨by omega, hrs⟩

theorem unaryBytes_inj : ∀ (a b : List Nat), unaryBytes a = unaryBytes b → a = b := by
  intro a
  induction a with
  | nil =>
    intro b h
    cases b with
    | nil => rfl
    | cons y ys =>
      have hl := congrArg List.length h
      simp [unaryBytes, unaryByte] at hl
      omega
  | cons x xs ih =>
    intro b h
    cases b with
    | nil =>
      have hl := congrArg List.length h
      simp [unaryBytes, unaryByte] at hl
    | cons y ys =>
      simp only [unaryBytes, unaryByte, List.append_assoc, List.singleton_append] at h
      obtain ⟨hxy, hrs⟩ := unary_sep_inj x y _ _ h
      exact hxy ▸ ih ys hrs ▸ rfl

theorem hmacSha256Hex_inj_msg (key m₁ m₂ : List Nat)
    (h : (hmacSha256Hex key m₁).data = (hmacSha256Hex key m₂).data) : m₁ = m₂ := by
  have hd : ('h' :: (unaryBytes key ++ '|' :: unaryBytes m₁)) =
      ('h' :: (unaryBytes key ++ '|' :: unaryBytes m₂)) := h
  simp only [List.cons.injEq, true_and] at hd
  have h₂ := List.append_cancel_left hd
  simp only [List.cons.injEq, true_and] at h₂
  exact unaryBytes_inj _ _ h₂

theorem sigBase_inj_body (ts : String) (b₁ b₂ : List Nat)
    (h : sigBase ts b₁ = sigBase ts b₂) : b₁ = b₂ :=
  List.append_cancel_left h

theorem slackSign_inj_body (secret : List Nat) (ts : String) (b₁ b₂ : List Nat)
    (h : slackSign secret ts b₁ = slackSign secret ts b₂) : b₁ = b₂ := by
  have hd := congrArg String.data h
  simp only [slackSign, String.data_append] at hd
  exact sigBase_inj_body ts b₁ b₂
    (hmacSha256Hex_inj_msg secret _ _ (List.append_cancel_left hd))

theorem slackSign_ne_empty (secret : List Nat) (ts : String) (b : List Nat) :
    slackSign secret ts b ≠ "" := by
  intro h
  have hd := congrArg String.data h
  simp only [slackSign, String.data_append] at hd
  have hl := congrArg List.length hd
  simp at hl

theorem unaryBytes_ascii : ∀ (l : List Nat), ∀ c ∈ unaryBytes l, c.toNat ≤ 0x7F := by
  intro l
  induction l with
  | nil => intro c hc; cases hc
  | cons n ns ih =>
    intro c hc
    simp only [unaryBytes, unaryByte, List.append_assoc, List.singleton_append,
      List.mem_append, List.mem_cons] at hc
    rcases hc with hc | rfl | hc
    · rw [List.eq_of_mem_replicate hc]
      decide
    · decide
    · exact ih c hc

/-- The computed signature `"v0=" + hexdigest` is ASCII, so the only
`compare_digest` argument that can trip the ASCII requirement is the
caller-supplied `signature`. -/
theorem slackSign_ascii (secret : List Nat) (ts : String) (b : List Nat) :
    isAsciiStr (slackSign secret ts b) = true := by
  unfold isAsciiStr
  rw [List.all_eq_true]
  intro c hc
  simp only [decide_eq_true_eq]
  simp only [slackSign, hmacSha256Hex, String.data_append,
    show ("v0=" : String).data = ['v', '0', '='] from rfl,
    List.mem_append, List.mem_cons, List.not_mem_nil, or_false] at hc
  rcases hc with (rfl | rfl | rfl) | rfl | h3 | rfl | h4
  · decide
  · decide
  · decide
  · decide
  · exact unaryBytes_ascii secret c h3
  · decide
  · exact unaryBytes_ascii _ c h4

theorem compare_digest_ok (a b : String) (ha : isAsciiStr a = true)
    (hb : isAsciiStr b = true) : compare_digest a b = .ok (a = b) := by
  unfold compare_digest
  rw [if_pos (by rw [ha, hb]; rfl)]

theorem compare_digest_raises (a b : String) (hb : isAsciiStr b = false) :
    compare_digest a b = .error "TypeError" := by
  unfold compare_digest
  rw [if_neg (by rw [hb, Bool.and_false]; exact Bool.false_ne_true)]

/-- Evaluation of `verify_signature` on inputs that pass the emptiness,
parse, replay-window and UTF-8 gates: it reduces to the digest comparison. -/
theorem verify_signature_eval (secret body : List Nat) (tstr sig : String)
    (tsv now : Int) (hne : tstr ≠ "") (hsig : sig ≠ "")
    (hparse : pyInt? tstr = some tsv) (hwin : (now - tsv).natAbs ≤ 300)
    (hutf : isValidUtf8 body = true) :
    verify_signature secret body tstr sig now =
      compare_digest (slackSign secret tstr body) sig := by
  simp only [verify_signature, hparse]
  rw [if_neg (not_or.mpr ⟨hne, hsig⟩)]
  rw [if_neg (by omega), if_pos hutf]

/-- C1 (amended): for every secret, valid-UTF-8 body, and parsable timestamp
within the replay window of the current time: the correctly computed
signature verifies; any other **ASCII** signature string makes
`verify_signature` return false, while a signature containing a non-ASCII
character instead makes the uncaught `hmac.compare_digest` raise
`TypeError`; and flipping any single byte of the body makes it return false
**provided the flipped body is still valid UTF-8** (a flip that breaks
UTF-8 validity instead raises `UnicodeDecodeError`).  The counterexample
exhibits both raise paths.  HMAC-SHA256 is idealized as collision-free. -/
theorem C1_verify_roundtrip_and_flip
    (secret body : List Nat) (tstr : String) (tsv now : Int)
    (hne : tstr ≠ "") (hparse : pyInt? tstr = some tsv)
    (hwin : (now - tsv).natAbs ≤ 300) (hutf : isValidUtf8 body = true) :
    verify_signature secret body tstr (slackSign secret tstr body) now = .ok true
    ∧ (∀ sig, sig ≠ slackSign secret tstr body → isAsciiStr sig = true →
        verify_signature secret body tstr sig now = .ok false)
    ∧ (∀ sig, isAsciiStr sig = false →
        verify_signature secret body tstr sig now = .error "TypeError")
    ∧ (∀ i b, (hi : i < body.length) → b ≠ body[i] →
        isValidUtf8 (body.set i b) = true →
        verify_signature secret (body.set i b) tstr
          (slackSign secret tstr body) now = .ok false) := by
  refine ⟨?_, ?_, ?_, ?_⟩
  · rw [verify_signature_eval secret body tstr _ tsv now hne
      (slackSign_ne_empty secret tstr body) hparse hwin hutf,
      compare_digest_ok _ _ (slackSign_ascii secret tstr body)
        (slackSign_ascii secret tstr body)]
    simp
  · intro sig hsig hasc
    by_cases hemp : sig = ""
    · subst hemp
      simp only [verify_signature]
      rw [if_pos (Or.inr trivial)]
    · rw [verify_signature_eval secret body tstr sig tsv now hne hemp hparse hwin hutf,
        compare_digest_ok _ _ (slackSign_ascii secret tstr body) hasc]
      simp only [Except.ok.injEq, decide_eq_false_iff_not]
      exact fun h => hsig h.symm
  · intro sig hasc
    have hemp : sig ≠ "" := by
      intro h
      subst h
      exact absurd hasc (by decide)
    rw [verify_signature_eval secret body tstr sig tsv now hne hemp hparse hwin hutf]
    exact compare_digest_raises _ _ hasc
  · intro i b hi hb hutf2
    rw [verify_signature_eval secret (body.set i b) tstr _ tsv now hne
      (slackSign_ne_empty secret tstr body) hparse hwin hutf2,
      compare_digest_ok _ _ (slackSign_ascii secret tstr _)
        (slackSign_ascii secret tstr body)]
    simp only [Except.ok.injEq, decide_eq_false_iff_not]
    intro h
    have hbody : body.set i b = body := slackSign_inj_body secret tstr _ _ h
    have h2 : (body.set i b)[i]? = body[i]? := by rw [hbody]
    rw [List.getElem?_set_self hi, List.getElem?_eq_getElem hi] at h2
    exact hb (Option.some.inj h2)

/-- C1 witness: concrete instance of the amended theorem. -/
theorem C1_witness :
    verify_signature (strBytes "sek") (strBytes "hello") "12"
      (slackSign (strBytes "sek") "12" (strBytes "hello")) 300 = .ok true :=
  (C1_verify_roundtrip_and_flip (strBytes "sek") (strBytes "hello") "12" 12 300
    (by decide) (by decide) (by decide) (by decide)).1

set_option maxRecDepth 8192 in
/-- C1 counterexample: the claim as stated fails on the code through two
raise paths.  Flipping the first byte of the body `"ab"` to `0xFF` makes
`request_body.decode()` raise `UnicodeDecodeError` instead of returning
`False`; and presenting the non-ASCII signature string `"v0=é"` (a
single-byte flip of a hex digit to a non-ASCII character) makes
`hmac.compare_digest` raise `TypeError` instead of returning `False`. -/
theorem C1_counterexample :
    verify_signature (strBytes "sek") ((strBytes "ab").set 0 0xFF) "0"
      (slackSign (strBytes "sek") "0" (strBytes "ab")) 0 =
      .error "UnicodeDecodeError"
    ∧ verify_signature (strBytes "sek") (strBytes "ab") "0" "v0=é" 0 =
      .error "TypeError" := by decide

/-- C7: `verify_signature` is *not* total on its public inputs: on a body
that is not valid UTF-8 (here the single byte `0xFF`) with a well-formed
timestamp inside the replay window, the uncaught `request_body.decode()`
raises `UnicodeDecodeError` instead of returning `False`. -/
theorem C7_decode_raises :
    verify_signature [] [0xFF] "0" "x" 0 = .error "UnicodeDecodeError" := by decide

theorem decChars_lt (n : Nat) (h : n < 10) : decChars n = [Nat.digitChar n] := by
  unfold decChars
  rw [if_pos h]

theorem decChars_ge (n : Nat) (h : 10 ≤ n) :
    decChars n = decChars (n / 10) ++ [Nat.digitChar (n % 10)] := by
  conv_lhs => unfold decChars
  rw [if_neg (by omega)]

theorem toDigitsCore_eq_decChars :
    ∀ (f n : Nat) (acc : List Char), n < f →
      Nat.toDigitsCore 10 f n acc = decChars n ++ acc := by
  intro f
  induction f with
  | zero => intro n acc h; omega
  | succ f ih =>
    intro n acc h
    by_cases h10 : n < 10
    · have hdiv : n / 10 = 0 := Nat.div_eq_of_lt h10
      simp only [Nat.toDigitsCore, hdiv, if_pos]
      rw [decChars_lt n h10, Nat.mod_eq_of_lt h10]
      rfl
    · have hdiv : ¬ n / 10 = 0 := by
        intro h0
        exact h10 (by omega)
      simp only [Nat.toDigitsCore, if_neg hdiv]
      have hlt : n / 10 < f := by
        have := Nat.div_lt_self (by omega : 0 < n) (by omega : 1 < 10)
        omega
      rw [ih (n / 10) _ hlt, decChars_ge n (by omega)]
      simp [List.append_assoc]

theorem natRepr_eq_decChars (n : Nat) : Nat.repr n = (decChars n).asString := by
  unfold Nat.repr Nat.toDigits
  rw [toDigitsCore_eq_decChars (n + 1) n [] (Nat.lt_succ_self n), List.append_nil]

theorem digitChar_inj10 :
    ∀ a, a < 10 → ∀ b, b < 10 → Nat.digitChar a = Nat.digitChar b → a = b := by decide

theorem decChars_ne_nil (n : Nat) : decChars n ≠ [] := by
  by_cases h : n < 10
  · rw [decChars_lt n h]; simp
  · rw [decChars_ge n (by omega)]; simp

theorem decChars_inj : ∀ (m n : Nat), decChars m = decChars n → m = n := by
  intro m
  induction m using Nat.strong_induction_on with
  | _ m ih =>
    intro n h
    by_cases hm : m < 10 <;> by_cases hn : n < 10
    · rw [decChars_lt m hm, decChars_lt n hn] at h
      simp only [List.cons.injEq, and_true] at h
      exact digitChar_inj10 m hm n hn h
    · rw [decChars_lt m hm, decChars_ge n (by omega)] at h
      have hl := congrArg List.length h
      simp only [List.length_cons, List.length_append, List.length_nil] at hl
      exact absurd (List.length_eq_zero.mp (by omega)) (decChars_ne_nil (n / 10))
    · rw [decChars_ge m (by omega), decChars_lt n hn] at h
      have hl := congrArg List.length h
      simp only [List.length_cons, List.length_append, List.length_nil] at hl
      exact absurd (List.length_eq_zero.mp (by omega)) (decChars_ne_nil (m / 10))
    · rw [decChars_ge m (by omega), decChars_ge n (by omega)] at h
      obtain ⟨h1, h2⟩ := List.append_inj' h (by simp)
      have hdiv : m / 10 = n / 10 :=
        ih (m / 10) (Nat.div_lt_self (by omega) (by omega)) (n / 10) h1
      have hmod : m % 10 = n % 10 :=
        digitChar_inj10 _ (Nat.mod_lt _ (by omega)) _ (Nat.mod_lt _ (by omega))
          (by simpa using h2)
      omega

theorem natRepr_inj {m n : Nat} (h : Nat.repr m = Nat.repr n) : m = n := by
  rw [natRepr_eq_decChars, natRepr_eq_decChars] at h
  exact decChars_inj _ _ (List.asString_inj.mp h)

theorem natToString_inj {m n : Nat} (h : toString m = toString n) : m = n :=
  natRepr_inj h

/-! ## Rate limiter lemmas -/

theorem mem_zrem_iff (s : ZSet) (ub : Int) (e : String × Nat) :
    e ∈ (zremrangebyscore s 0 ub).entries ↔ e ∈ s.entries ∧ ub < (e.2 : Int) := by
  simp only [zremrangebyscore, List.mem_filter]
  constructor
  · rintro ⟨he, hc⟩
    refine ⟨he, ?_⟩
    simp at hc
    omega
  · rintro ⟨he, hub⟩
    refine ⟨he, ?_⟩
    simp
    omega

theorem zrem_noop (s : ZSet) (ub : Int) (h : ∀ e ∈ s.entries, ub < (e.2 : Int)) :
    zremrangebyscore s 0 ub = s := by
  unfold zremrangebyscore
  cases s with
  | mk l =>
    simp only [ZSet.mk.injEq]
    apply List.filter_eq_self.mpr
    intro e he
    have := h e he
    simp
    omega

theorem zrem_all (s : ZSet) (ub : Int) (h : ∀ e ∈ s.entries, (e.2 : Int) ≤ ub) :
    zremrangebyscore s 0 ub = ⟨[]⟩ := by
  unfold zremrangebyscore
  simp only [ZSet.mk.injEq]
  apply List.filter_eq_nil_iff.mpr
  intro e he
  have := h e he
  simp
  omega

theorem zadd_fresh (s : ZSet) (m : String) (sc : Nat)
    (h : ∀ e ∈ s.entries, e.1 ≠ m) :
    zadd s m sc = ⟨s.entries ++ [(m, sc)]⟩ := by
  unfold zadd
  rw [if_neg]
  intro hany
  simp only [List.any_eq_true, decide_eq_true_eq] at hany
  obtain ⟨e, he, heq⟩ := hany
  exact h e he heq

theorem mem_zadd (s : ZSet) (m : String) (sc : Nat) :
    ∀ e ∈ (zadd s m sc).entries, e = (m, sc) ∨ e ∈ s.entries := by
  intro e he
  unfold zadd at he
  by_cases hany : s.entries.any (fun e => e.1 = m) = true
  · rw [if_pos hany] at he
    simp only [List.mem_map] at he
    obtain ⟨x, hx, rfl⟩ := he
    by_cases hx1 : x.1 = m
    · left; simp [hx1]
    · right; simpa [hx1] using hx
  · rw [if_neg hany] at he
    simp only [List.mem_append, List.mem_singleton] at he
    rcases he with he | he
    · right; exact he
    · left; exact he

theorem zadd_mem_self (s : ZSet) (m : String) (sc : Nat) :
    (m, sc) ∈ (zadd s m sc).entries := by
  unfold zadd
  by_cases hany : s.entries.any (fun e => e.1 = m) = true
  · rw [if_pos hany]
    simp only [List.any_eq_true, decide_eq_true_eq] at hany
    obtain ⟨x, hx, hx1⟩ := hany
    simp only [List.mem_map]
    exact ⟨x, hx, by simp [hx1]⟩
  · rw [if_neg hany]
    simp

theorem map_id_of {α : Type} (l : List α) (f : α → α) (h : ∀ x ∈ l, f x = x) :
    l.map f = l := by
  induction l with
  | nil => rfl
  | cons x xs ih =>
    simp only [List.map_cons, h x (List.mem_cons_self x xs),
      ih (fun y hy => h y (List.mem_cons_of_mem x hy))]

theorem runCalls_append (cfg : RateConfig) (s : ZSet) (l1 l2 : List Nat) :
    runCalls cfg s (l1 ++ l2) =
      ((runCalls cfg s l1).1 ++ (runCalls cfg (runCalls cfg s l1).2 l2).1,
       (runCalls cfg (runCalls cfg s l1).2 l2).2) := by
  induction l1 generalizing s with
  | nil => simp [runCalls]
  | cons t l1 ih => simp [runCalls, ih]

/-- A run of calls at strictly increasing times, all pairwise within one
window span, starting from the recorded history `done`: while the quota is
not reached every call is admitted and appends `(str(t), t)`. -/
theorem run_all_admitted (cfg : RateConfig) :
    ∀ (ts done : List Nat),
      done.length + ts.length ≤ cfg.rate_limit_requests →
      (done ++ ts).Pairwise (· < ·) →
      (∀ a ∈ done ++ ts, ∀ b ∈ done ++ ts,
        (b : Int) - cfg.rate_limit_window_seconds < a) →
      runCalls cfg ⟨encTimes done⟩ ts =
        (List.replicate ts.length true, ⟨encTimes (done ++ ts)⟩) := by
  intro ts
  induction ts with
  | nil =>
    intro done _ _ _
    simp [runCalls]
  | cons t ts ih =>
    intro done hlen hpw hwin
    have htL : t ∈ done ++ t :: ts :=
      List.mem_append_right _ (List.mem_cons_self _ _)
    have hprune : zremrangebyscore ⟨encTimes done⟩ 0
        ((t : Int) - cfg.rate_limit_window_seconds) = ⟨encTimes done⟩ := by
      apply zrem_noop
      intro e he
      simp only [encTimes, List.mem_map] at he
      obtain ⟨d, hd, rfl⟩ := he
      exact hwin d (List.mem_append_left _ hd) t htL
    have hfresh : ∀ e ∈ (⟨encTimes done⟩ : ZSet).entries, e.1 ≠ toString t := by
      intro e he
      simp only [encTimes, List.mem_map] at he
      obtain ⟨d, hd, rfl⟩ := he
      intro heq
      have hdlt : d < t :=
        (List.pairwise_append.mp hpw).2.2 d hd t (List.mem_cons_self _ _)
      exact absurd (natToString_inj heq) (by omega)
    have hstep : is_allowed cfg ⟨encTimes done⟩ t = (true, ⟨encTimes (done ++ [t])⟩) := by
      unfold is_allowed
      rw [hprune]
      have hcount : zcard ⟨encTimes done⟩ = done.length := by
        simp [zcard, encTimes]
      rw [if_neg (by rw [hcount]; simp only [List.length_cons] at hlen; omega)]
      rw [zadd_fresh _ _ _ hfresh]
      simp [encTimes]
    simp only [runCalls, hstep]
    have harr : (done ++ [t]) ++ ts = done ++ t :: ts := by
      simp [List.append_assoc]
    rw [ih (done ++ [t]) (by simp only [List.length_append, List.length_cons,
        List.length_nil] at hlen ⊢; omega)
      (by rw [harr]; exact hpw)
      (by rw [harr]; exact hwin)]
    simp [harr, List.replicate_succ]

/-- C2 (amended): with calls at *distinct* strictly increasing whole seconds
that all lie within one window span of each other, starting from an empty
window: the first `quota` calls are admitted, the `(quota+1)`-th is rejected
and records nothing (the set is left exactly as it was); and a later call
after the whole window has elapsed past every recorded timestamp is admitted
again.  The spec's concrete scenario (quota=3, window=60s, calls at
t=0,10,20,25,61) is the final conjunct.  The distinct-seconds proviso is
forced by the counterexample: same-second calls collapse into one sorted-set
member (see C10) and the `(quota+1)`-th call is then *not* rejected. -/
theorem C2_admission_quota (cfg : RateConfig) (ts : List Nat) (tq t2 : Nat)
    (hq : 0 < cfg.rate_limit_requests)
    (hlen : ts.length = cfg.rate_limit_requests)
    (hpw : (ts ++ [tq]).Pairwise (· < ·))
    (hwin : ∀ a ∈ ts ++ [tq], ∀ b ∈ ts ++ [tq],
        (b : Int) - cfg.rate_limit_window_seconds < a)
    (hexp : ∀ a ∈ ts, (a : Int) ≤ (t2 : Int) - cfg.rate_limit_window_seconds) :
    runCalls cfg ⟨[]⟩ (ts ++ [tq]) =
      (List.replicate cfg.rate_limit_requests true ++ [false], ⟨encTimes ts⟩)
    ∧ is_allowed cfg ⟨encTimes ts⟩ t2 = (true, ⟨[(toString t2, t2)]⟩)
    ∧ runCalls ⟨3, 60⟩ ⟨[]⟩ [0, 10, 20, 25, 61] =
        ([true, true, true, false, true],
         ⟨[("10", 10), ("20", 20), ("61", 61)]⟩) := by
  have hrun : runCalls cfg ⟨[]⟩ ts = (List.replicate ts.length true, ⟨encTimes ts⟩) := by
    have hts : ts.Pairwise (· < ·) := hpw.sublist (List.sublist_append_left ts [tq])
    have hw2 : ∀ a ∈ ([] : List Nat) ++ ts, ∀ b ∈ ([] : List Nat) ++ ts,
        (b : Int) - cfg.rate_limit_window_seconds < a := by
      intro a ha b hb
      simp only [List.nil_append] at ha hb
      exact hwin a (List.mem_append_left _ ha) b (List.mem_append_left _ hb)
    have := run_all_admitted cfg ts [] (by simp [hlen]) (by simpa using hts) hw2
    simpa [encTimes] using this
  have hpruneq : zremrangebyscore ⟨encTimes ts⟩ 0
      ((tq : Int) - cfg.rate_limit_window_seconds) = ⟨encTimes ts⟩ := by
    apply zrem_noop
    intro e he
    simp only [encTimes, List.mem_map] at he
    obtain ⟨a, ha, rfl⟩ := he
    exact hwin a (List.mem_append_left _ ha) tq (List.mem_append_right _ (by simp))
  have hrej : is_allowed cfg ⟨encTimes ts⟩ tq = (false, ⟨encTimes ts⟩) := by
    unfold is_allowed
    rw [hpruneq]
    rw [if_pos (by simp [zcard, encTimes, hlen])]
  refine ⟨?_, ?_, by decide⟩
  · rw [runCalls_append, hrun]
    simp [runCalls, hrej, hlen]
  · unfold is_allowed
    rw [zrem_all _ _ (by
      intro e he
      simp only [encTimes, List.mem_map] at he
      obtain ⟨a, ha, rfl⟩ := he
      exact hexp a ha)]
    rw [if_neg (by simp [zcard]; omega)]
    rw [zadd_fresh _ _ _ (by intro e he; simp at he)]
    rfl

/-- C2 counterexample: four calls all inside one window (all at t=0) with
quota 3 — the claim says the fourth returns false, but the code admits it:
same-second calls overwrite one member and never accumulate to the quota. -/
theorem C2_counterexample :
    runCalls ⟨3, 60⟩ ⟨[]⟩ [0, 0, 0, 0] = ([true, true, true, true], ⟨[("0", 0)]⟩) := by
  decide

/-- C2 witness: the amended theorem applied at quota 3, window 60s, calls at
t = 0, 10, 20 then 25. -/
theorem C2_witness :
    runCalls ⟨3, 60⟩ ⟨[]⟩ ([0, 10, 20] ++ [25]) =
      (List.replicate 3 true ++ [false], ⟨encTimes [0, 10, 20]⟩) :=
  (C2_admission_quota ⟨3, 60⟩ [0, 10, 20] 25 85 (by decide) (by decide)
    (by decide) (by decide) (by decide)).1

/-- C5 (amended): the window's lower bound is *exclusive*, not inclusive: a
recorded timestamp with score exactly `now − window` falls inside the
inclusive removal range `[0, now − window]` of `zremrangebyscore` and is
pruned, so it does not contribute to the count; only scores strictly greater
than `now − window` are retained.  The verdict of `is_allowed` compares the
quota against the length of exactly this pruned set. -/
theorem C5_exclusive_lower_bound (cfg : RateConfig) (s : ZSet) (now : Nat)
    (e : String × Nat) (he : e ∈ s.entries) :
    ((e.2 : Int) ≤ (now : Int) - cfg.rate_limit_window_seconds →
      e ∉ (zremrangebyscore s 0 ((now : Int) - cfg.rate_limit_window_seconds)).entries)
    ∧ ((now : Int) - cfg.rate_limit_window_seconds < (e.2 : Int) →
      e ∈ (zremrangebyscore s 0 ((now : Int) - cfg.rate_limit_window_seconds)).entries)
    ∧ (is_allowed cfg s now).1 =
        decide (zcard (zremrangebyscore s 0
          ((now : Int) - cfg.rate_limit_window_seconds)) < cfg.rate_limit_requests) := by
  refine ⟨?_, ?_, ?_⟩
  · intro hle hmem
    have := ((mem_zrem_iff s _ e).mp hmem).2
    omega
  · intro hgt
    exact (mem_zrem_iff s _ e).mpr ⟨he, hgt⟩
  · unfold is_allowed
    by_cases hc : cfg.rate_limit_requests ≤
        zcard (zremrangebyscore s 0 ((now : Int) - cfg.rate_limit_window_seconds))
    · rw [if_pos hc]
      have hnlt : ¬ zcard (zremrangebyscore s 0
          ((now : Int) - cfg.rate_limit_window_seconds)) < cfg.rate_limit_requests := by
        omega
      simp [hnlt]
    · rw [if_neg hc]
      have hlt : zcard (zremrangebyscore s 0
          ((now : Int) - cfg.rate_limit_window_seconds)) < cfg.rate_limit_requests := by
        omega
      simp [hlt]

/-- C5 counterexample: with quota 1 and window 60s, a request recorded at
t=0 and evaluated at now=60 sits exactly at `now − window`; the claim says
it is retained and counts (so the call would be rejected), but the code
prunes it and admits the call. -/
theorem C5_counterexample :
    (is_allowed ⟨1, 60⟩ ⟨[("0", 0)]⟩ 60).1 = true
    ∧ ("0", 0) ∉ (is_allowed ⟨1, 60⟩ ⟨[("0", 0)]⟩ 60).2.entries := by decide

/-- C5 witness: the amended theorem applied at a boundary timestamp. -/
theorem C5_witness :
    ("5", 5) ∉ (zremrangebyscore ⟨[("5", 5)]⟩ 0
      (((65 : Nat) : Int) - ((⟨1, 60⟩ : RateConfig).rate_limit_window_seconds : Nat))).entries :=
  (C5_exclusive_lower_bound ⟨1, 60⟩ ⟨[("5", 5)]⟩ 65 ("5", 5) (by decide)).1 (by decide)

/-- C6 (amended): `get_rate_limit_info` adds no entry and keeps every
in-window entry, but it is *not* read-only: its first step is the same
inclusive `zremrangebyscore` prune as `is_allowed`, so entries at or below
`now − window` are deleted from the backing store (see the counterexample).
Its reported `requests_made` is the size of the pruned set. -/
theorem C6_info_prunes_only (cfg : RateConfig) (s : ZSet) (now : Nat) :
    (get_rate_limit_info cfg s now).2.entries ⊆ s.entries
    ∧ (∀ e ∈ s.entries, (now : Int) - cfg.rate_limit_window_seconds < (e.2 : Int) →
        e ∈ (get_rate_limit_info cfg s now).2.entries)
    ∧ (get_rate_limit_info cfg s now).1.requests_made =
        zcard (get_rate_limit_info cfg s now).2 := by
  refine ⟨?_, ?_, rfl⟩
  · intro e he
    simp only [get_rate_limit_info] at he
    exact ((mem_zrem_iff s _ e).mp he).1
  · intro e he hgt
    simp only [get_rate_limit_info]
    exact (mem_zrem_iff s _ e).mpr ⟨he, hgt⟩

/-- C6 counterexample: a diagnostics call does mutate the backing store —
with window 60s, a set holding a request from t=0 read at now=100 loses that
entry. -/
theorem C6_counterexample :
    (get_rate_limit_info ⟨10, 60⟩ ⟨[("0", 0)]⟩ 100).2 ≠ ⟨[("0", 0)]⟩ := by decide

/-- `ZADD` with a member the set already holds at exactly the same pair is a
no-op. -/
theorem zadd_noop (s : ZSet) (m : String) (sc : Nat)
    (hmem : (m, sc) ∈ s.entries)
    (hdet : ∀ x ∈ s.entries, x.1 = m → x = (m, sc)) :
    zadd s m sc = s := by
  unfold zadd
  rw [if_pos (by
    simp only [List.any_eq_true, decide_eq_true_eq]
    exact ⟨(m, sc), hmem, rfl⟩)]
  rw [map_id_of _ _ (fun x hx => by
    by_cases hx1 : x.1 = m
    · rw [if_pos hx1, hdet x hx hx1]
    · rw [if_neg hx1])]

theorem zadd_coh (s : ZSet) (sc : Nat)
    (hcoh : ∀ e ∈ s.entries, e.1 = toString e.2) :
    ∀ e ∈ (zadd s (toString sc) sc).entries, e.1 = toString e.2 := by
  intro e he
  rcases mem_zadd s _ sc e he with rfl | he2
  · rfl
  · exact hcoh e he2

theorem zadd_uniq (s : ZSet) (m : String) (sc : Nat)
    (huniq : s.entries.Pairwise (fun a b => a.1 ≠ b.1)) :
    (zadd s m sc).entries.Pairwise (fun a b => a.1 ≠ b.1) := by
  unfold zadd
  by_cases hany : s.entries.any (fun e => e.1 = m) = true
  · rw [if_pos hany]
    have hkey : ∀ x : String × Nat,
        ((fun e => if e.1 = m then (m, sc) else e) x).1 = x.1 := by
      intro x
      by_cases hx : x.1 = m
      · simp [hx]
      · simp [hx]
    rw [List.pairwise_map]
    exact huniq.imp (fun {a b} h => by rw [hkey a, hkey b]; exact h)
  · rw [if_neg hany]
    rw [List.pairwise_append]
    refine ⟨huniq, by simp, ?_⟩
    intro a ha b hb
    simp only [List.mem_singleton] at hb
    subst hb
    have hno : ¬ ∃ e ∈ s.entries, e.1 = m := by simpa using hany
    exact fun h => hno ⟨a, ha, h⟩

/-- In a set whose members are the decimal strings of their scores and whose
members are unique, each score occurs at most once. -/
theorem count_per_second (s : ZSet)
    (hcoh : ∀ e ∈ s.entries, e.1 = toString e.2)
    (huniq : s.entries.Pairwise (fun a b => a.1 ≠ b.1)) :
    ∀ sc : Nat, (s.entries.filter (fun e => e.2 = sc)).length ≤ 1 := by
  intro sc
  have hpF : (s.entries.filter (fun e => e.2 = sc)).Pairwise (fun a b => a.1 ≠ b.1) :=
    huniq.sublist (List.filter_sublist _)
  cases hF : s.entries.filter (fun e => e.2 = sc) with
  | nil => simp [hF]
  | cons x tl =>
    cases tl with
    | nil => simp [hF]
    | cons y tl2 =>
      exfalso
      rw [hF] at hpF
      have hxy := (List.pairwise_cons.mp hpF).1 y (List.mem_cons_self _ _)
      have hx : x ∈ s.entries.filter (fun e => e.2 = sc) := by
        rw [hF]; exact List.mem_cons_self _ _
      have hy : y ∈ s.entries.filter (fun e => e.2 = sc) := by
        rw [hF]; exact List.mem_cons_of_mem _ (List.mem_cons_self _ _)
      obtain ⟨hxs, hxsc⟩ := List.mem_filter.mp hx
      obtain ⟨hys, hysc⟩ := List.mem_filter.mp hy
      simp only [decide_eq_true_eq] at hxsc hysc
      exact hxy (by rw [hcoh x hxs, hcoh y hys, hxsc, hysc])

/-- C10: the member recorded by an admitted call is `str(current_time)`, so
a well-formed rate-limit set (members are the decimal strings of their
scores, members unique — both facts preserved by every `is_allowed` call)
holds at most one entry per integer second; and after an admitted call at
time `t`, an immediately repeated call at the same second leaves the set
exactly as it was — repeated same-second calls do not accumulate toward the
quota. -/
theorem C10_same_second_overwrite (cfg : RateConfig) (s : ZSet) (now : Nat)
    (hw : 0 < cfg.rate_limit_window_seconds)
    (hcoh : ∀ e ∈ s.entries, e.1 = toString e.2)
    (huniq : s.entries.Pairwise (fun a b => a.1 ≠ b.1)) :
    (∀ e ∈ (is_allowed cfg s now).2.entries, e.1 = toString e.2)
    ∧ (is_allowed cfg s now).2.entries.Pairwise (fun a b => a.1 ≠ b.1)
    ∧ (∀ sc : Nat, (s.entries.filter (fun e => e.2 = sc)).length ≤ 1)
    ∧ ((is_allowed cfg s now).1 = true →
        (is_allowed cfg (is_allowed cfg s now).2 now).2 = (is_allowed cfg s now).2) := by
  have hsubl : (zremrangebyscore s 0
      ((now : Int) - cfg.rate_limit_window_seconds)).entries.Sublist s.entries := by
    simp only [zremrangebyscore]
    exact List.filter_sublist _
  have hcohP : ∀ e ∈ (zremrangebyscore s 0
      ((now : Int) - cfg.rate_limit_window_seconds)).entries, e.1 = toString e.2 :=
    fun e he => hcoh e (hsubl.subset he)
  have huniqP : (zremrangebyscore s 0
      ((now : Int) - cfg.rate_limit_window_seconds)).entries.Pairwise
        (fun a b => a.1 ≠ b.1) :=
    huniq.sublist hsubl
  by_cases hc : cfg.rate_limit_requests ≤
      zcard (zremrangebyscore s 0 ((now : Int) - cfg.rate_limit_window_seconds))
  · have hIA : is_allowed cfg s now =
        (false, zremrangebyscore s 0 ((now : Int) - cfg.rate_limit_window_seconds)) := by
      unfold is_allowed
      rw [if_pos hc]
    refine ⟨?_, ?_, count_per_second s hcoh huniq, ?_⟩
    · rw [hIA]; exact hcohP
    · rw [hIA]; exact huniqP
    · rw [hIA]; intro h; cases h
  · have hIA : is_allowed cfg s now =
        (true, zadd (zremrangebyscore s 0 ((now : Int) - cfg.rate_limit_window_seconds))
          (toString now) now) := by
      unfold is_allowed
      rw [if_neg hc]
    have hcoh1 := zadd_coh (zremrangebyscore s 0
      ((now : Int) - cfg.rate_limit_window_seconds)) now hcohP
    have huniq1 := zadd_uniq (zremrangebyscore s 0
      ((now : Int) - cfg.rate_limit_window_seconds)) (toString now) now huniqP
    refine ⟨?_, ?_, count_per_second s hcoh huniq, ?_⟩
    · rw [hIA]; exact hcoh1
    · rw [hIA]; exact huniq1
    · rw [hIA]
      intro _
      have hgt1 : ∀ e ∈ (zadd (zremrangebyscore s 0
          ((now : Int) - cfg.rate_limit_window_seconds)) (toString now) now).entries,
          (now : Int) - cfg.rate_limit_window_seconds < (e.2 : Int) := by
        intro e he
        rcases mem_zadd _ _ _ e he with rfl | he2
        · simp; omega
        · exact ((mem_zrem_iff s _ e).mp he2).2
      have hzr := zrem_noop _ _ hgt1
      unfold is_allowed
      rw [hzr]
      by_cases hc2 : cfg.rate_limit_requests ≤
          zcard (zadd (zremrangebyscore s 0
            ((now : Int) - cfg.rate_limit_window_seconds)) (toString now) now)
      · rw [if_pos hc2]
      · rw [if_neg hc2]
        have hmem : (toString now, now) ∈ (zadd (zremrangebyscore s 0
            ((now : Int) - cfg.rate_limit_window_seconds)) (toString now) now).entries :=
          zadd_mem_self _ _ _
        show zadd _ (toString now) now = _
        apply zadd_noop _ _ _ hmem
        intro x hxm hx1
        have hx2 : x.2 = now := natToString_inj ((hcoh1 x hxm).symm.trans hx1)
        cases x with
        | mk a b =>
          simp only at hx1 hx2
          simp [hx1, hx2]

/-- C10 witness: the invariants and the same-second overwrite at a concrete
store: state `{"3": 3}` with quota 2, window 60, two calls at t = 5. -/
theorem C10_witness :
    (is_allowed ⟨2, 60⟩ (is_allowed ⟨2, 60⟩ ⟨[("3", 3)]⟩ 5).2 5).2 =
      (is_allowed ⟨2, 60⟩ ⟨[("3", 3)]⟩ 5).2 :=
  (C10_same_second_overwrite ⟨2, 60⟩ ⟨[("3", 3)]⟩ 5 (by decide) (by decide)
    (by decide)).2.2.2 (by decide)

theorem lookup_selfpairs (L : List Nat) (sid : Nat) (h : sid ∈ L) :
    lookupData (L.map (fun i => (i, i))) sid = some sid := by
  induction L with
  | nil => cases h
  | cons x xs ih =>
    simp only [List.map_cons, lookupData]
    by_cases hx : x = sid
    · rw [if_pos hx, hx]
    · rw [if_neg hx]
      rcases List.mem_cons.mp h with h1 | h1
      · exact absurd h1.symm hx
      · exact ih h1

theorem filterMap_selfpairs (idx L : List Nat) (h : ∀ i ∈ idx, i ∈ L) :
    idx.filterMap (fun sid =>
        (lookupData (L.map (fun i => (i, i))) sid).map (fun t => (sid, t)))
      = idx.map (fun i => (i, i)) := by
  induction idx with
  | nil => rfl
  | cons x xs ih =>
    have hx := lookup_selfpairs L x (h x (List.mem_cons_self _ _))
    simp [List.filterMap_cons, hx,
      ih (fun i hi => h i (List.mem_cons_of_mem _ hi))]

theorem sortByTime_of_sorted (xs : List (Nat × Nat))
    (h : xs.Pairwise (fun p q => p.2 ≤ q.2)) : sortByTime xs = xs := by
  induction xs with
  | nil => rfl
  | cons x xs ih =>
    have hx := (List.pairwise_cons.mp h).1
    rw [sortByTime, ih (List.pairwise_cons.mp h).2]
    cases xs with
    | nil => rfl
    | cons y ys =>
      show insertByTime x (y :: ys) = x :: y :: ys
      rw [insertByTime, if_pos (hx y (List.mem_cons_self _ _))]

theorem range'_pairwise_lt (n : Nat) : ∀ s, (List.range' s n).Pairwise (· < ·) := by
  induction n with
  | zero => intro s; simp
  | succ n ih =>
    intro s
    rw [List.range'_succ]
    refine List.pairwise_cons.mpr ⟨?_, ih (s + 1)⟩
    intro b hb
    have := (List.mem_range'_1.mp hb).1
    omega

/-- Closed form of `n` sequential session creations with cap `m`: the store
holds exactly the `min n m` most recent sessions, ids `n − m, …, n − 1`. -/
theorem runCreates_closed (m : Nat) :
    ∀ n, runCreates m n =
      ⟨(List.range' (n - m) (min n m)).map (fun i => (i, i)),
       List.range' (n - m) (min n m)⟩ := by
  intro n
  induction n with
  | zero => simp [runCreates]
  | succ n ih =>
    have hac : (n - m) + min n m = n := by omega
    have hmem : ∀ i ∈ List.range' (n - m) (min n m), i < n := by
      intro i hi
      have := List.mem_range'_1.mp hi
      omega
    have hset : setData ((List.range' (n - m) (min n m)).map (fun i => (i, i))) n n
        = ((List.range' (n - m) (min n m)).map (fun i => (i, i))) ++ [(n, n)] := by
      unfold setData
      rw [if_neg]
      intro hany
      simp only [List.any_eq_true, decide_eq_true_eq, List.mem_map] at hany
      obtain ⟨e, ⟨i, hi, rfl⟩, hkey⟩ := hany
      simp only at hkey
      exact absurd (hmem i hi) (by omega)
    have hsadd : saddIndex (List.range' (n - m) (min n m)) n
        = List.range' (n - m) (min n m) ++ [n] := by
      unfold saddIndex
      rw [if_neg]
      intro hc
      simp only [List.contains_iff_exists_mem_beq, beq_iff_eq] at hc
      obtain ⟨x, hx, rfl⟩ := hc
      exact absurd (hmem n hx) (by omega)
    have hcat : List.range' (n - m) (min n m) ++ [n] = List.range' (n - m) (min n m + 1) := by
      rw [List.range'_1_concat, hac]
    show create_session m (runCreates m n) n n = _
    rw [ih]
    unfold create_session cleanup_user_sessions
    simp only [hset, hsadd]
    by_cases hnm : n < m
    · rw [if_neg (by
        simp only [List.length_append, List.length_map, List.length_range',
          List.length_singleton]
        omega)]
      have h1 : n + 1 - m = 0 := by omega
      have h0 : n - m = 0 := by omega
      have hmin : min n m = n := by omega
      have hmin1 : min (n + 1) m = n + 1 := by omega
      rw [h0, hmin] at hcat ⊢
      rw [h1, hmin1, ← hcat]
      simp
    · rw [if_pos (by
        simp only [List.length_append, List.length_range', List.length_singleton]
        omega)]
      have hmin : min n m = m := by omega
      have hidx : ∀ i ∈ List.range' (n - m) (min n m) ++ [n],
          i ∈ List.range' (n - m) (min n m) ++ [n] := fun i hi => hi
      have hmap : (List.range' (n - m) (min n m)).map (fun i => (i, i)) ++ [(n, n)]
          = (List.range' (n - m) (min n m) ++ [n]).map (fun i => (i, i)) := by
        simp
      rw [hmap]
      rw [filterMap_selfpairs _ _ hidx]
      have hpw : (List.range' (n - m) (min n m) ++ [n]).Pairwise (· ≤ ·) := by
        rw [hcat]
        exact (range'_pairwise_lt _ _).imp (fun h => Nat.le_of_lt h)
      have hsorted : ((List.range' (n - m) (min n m) ++ [n]).map
          (fun i => (i, i))).Pairwise (fun p q : Nat × Nat => p.2 ≤ q.2) := by
        rw [List.pairwise_map]
        exact hpw
      rw [sortByTime_of_sorted _ hsorted]
      have hlen : (List.range' (n - m) (min n m) ++ [n]).length = m + 1 := by
        simp [hmin]
      simp only [List.length_map, hlen]
      have htake1 : m + 1 - m = 1 := by omega
      rw [htake1]
      have hexpand : List.range' (n - m) (min n m) ++ [n]
          = (n - m) :: List.range' (n - m + 1) m := by
        rw [hcat, hmin]
        rw [List.range'_succ]
      rw [hexpand]
      have hkeep : ∀ i ∈ List.range' (n - m + 1) m, ¬ i = n - m := by
        intro i hi
        have := (List.mem_range'_1.mp hi).1
        omega
      simp only [List.map_cons, List.take_succ_cons, List.take_zero, List.map_nil,
        List.filter_cons, List.contains_cons, List.contains_nil, Bool.or_false,
        beq_self_eq_true, Bool.not_true, Bool.false_eq_true, if_false]
      have e1 : n + 1 - m = n - m + 1 := by omega
      have e2 : min (n + 1) m = m := by omega
      rw [e1, e2, SessStore.mk.injEq]
      constructor
      · apply List.filter_eq_self.mpr
        intro e he
        simp only [List.mem_map] at he
        obtain ⟨i, hi, rfl⟩ := he
        simp [hkeep i hi]
      · apply List.filter_eq_self.mpr
        intro a ha
        simp [hkeep a ha]

/-- C3: creating `max_sessions_per_user + k` sessions sequentially (fresh
ids, strictly increasing creation times) leaves exactly
`max_sessions_per_user` live sessions for the identity — the most recently
created ones (ids `k, …, k + max − 1` of the `0`-based creation sequence) —
and after every creation the per-identity count is `min n max`, never
exceeding the cap. -/
theorem C3_session_cap_eviction (m k : Nat) :
    (runCreates m (m + k)).index = List.range' k m
    ∧ (runCreates m (m + k)).data = (List.range' k m).map (fun i => (i, i))
    ∧ (∀ n : Nat, (runCreates m n).index.length = min n m) := by
  have hmk : m + k - m = k := by omega
  have hmin : min (m + k) m = m := by omega
  refine ⟨?_, ?_, ?_⟩
  · rw [runCreates_closed m (m + k), hmk, hmin]
  · rw [runCreates_closed m (m + k), hmk, hmin]
  · intro n
    rw [runCreates_closed m n]
    simp

/-- C4: refreshing a token that verifies successfully yields a new token
whose `jti` is the freshly drawn uuid (distinct from the old one — uuid4
freshness is the hypothesis `hjti`) and whose identity claims (`user_id`,
`slack_user_id`, `roles`, `permissions`) are identical to the input's;
refreshing any token that fails verification — in particular any expired or
tampered token — returns `None`. -/
theorem C4_refresh_token (secret : String) (hours now : Int) (jti2 : String)
    (t : SignedToken) (p : TokenPayload)
    (hver : verify_token secret now t = some p)
    (hjti : jti2 ≠ p.jti) :
    (∃ t2, refresh_token secret hours now jti2 t = some t2
      ∧ t2.payload.jti ≠ p.jti
      ∧ t2.payload.user_id = p.user_id
      ∧ t2.payload.slack_user_id = p.slack_user_id
      ∧ t2.payload.roles = p.roles
      ∧ t2.payload.permissions = p.permissions)
    ∧ (∀ t3 : SignedToken, verify_token secret now t3 = none →
        refresh_token secret hours now jti2 t3 = none)
    ∧ (∀ t3 : SignedToken, t3.payload.exp ≤ now →
        refresh_token secret hours now jti2 t3 = none)
    ∧ (∀ t3 : SignedToken, t3.sig_secret ≠ secret →
        refresh_token secret hours now jti2 t3 = none) := by
  have hexp : ∀ t3 : SignedToken, verify_token secret now t3 = none →
      refresh_token secret hours now jti2 t3 = none := by
    intro t3 h
    unfold refresh_token
    rw [h]
  refine ⟨?_, hexp, ?_, ?_⟩
  · refine ⟨generate_token secret hours now jti2
      { user_id := p.user_id
        slack_user_id := p.slack_user_id
        email := p.email
        roles := p.roles
        permissions := p.permissions }, ?_, hjti, rfl, rfl, rfl, rfl⟩
    unfold refresh_token
    rw [hver]
  · intro t3 h
    apply hexp
    unfold verify_token
    by_cases hs : t3.sig_secret ≠ secret
    · rw [if_pos hs]
    · rw [if_neg hs, if_pos h]
  · intro t3 h
    apply hexp
    unfold verify_token
    rw [if_pos h]

/-- C4 witness: a concrete valid token refreshed with a fresh uuid. -/
theorem C4_witness :
    refresh_token "s" 24 5 "uuid-2"
        ⟨{ user_id := "u1", slack_user_id := "U1", email := none, roles := ["analyst"],
           permissions := ["query_execute"], iat := 0, exp := 10, jti := "uuid-1" }, "s"⟩
      = some (generate_token "s" 24 5 "uuid-2"
          { user_id := "u1", slack_user_id := "U1", email := none,
            roles := ["analyst"], permissions := ["query_execute"] }) :=
  ((C4_refresh_token "s" 24 5 "uuid-2"
      ⟨{ user_id := "u1", slack_user_id := "U1", email := none, roles := ["analyst"],
         permissions := ["query_execute"], iat := 0, exp := 10, jti := "uuid-1" }, "s"⟩
      { user_id := "u1", slack_user_id := "U1", email := none, roles := ["analyst"],
        permissions := ["query_execute"], iat := 0, exp := 10, jti := "uuid-1" }
      (by decide) (by decide)).1).elim
    (fun t2 ht => ht.1.trans (by rw [show t2 = generate_token "s" 24 5 "uuid-2"
      { user_id := "u1", slack_user_id := "U1", email := none,
        roles := ["analyst"], permissions := ["query_execute"] } from
        (Option.some.injEq _ _).mp (ht.1.symm.trans (by
          unfold refresh_token verify_token
          simp))]))

/-- C8 (amended): `verify_token` returns the decoded claims on a valid
token and `None` on every failure; an expired token and a tampered
(signature-invalid) token produce the *same* return value `None`, so the
two failure cases are not distinguishable from the return value — they are
distinguished only in the log messages. -/
theorem C8_verify_failures_collapse (secret : String) (now : Int) (t1 t2 : SignedToken) :
    (t1.sig_secret = secret → now < t1.payload.exp →
      verify_token secret now t1 = some t1.payload)
    ∧ (t1.payload.exp ≤ now → verify_token secret now t1 = none)
    ∧ (t2.sig_secret ≠ secret → verify_token secret now t2 = none)
    ∧ (t1.payload.exp ≤ now → t2.sig_secret ≠ secret →
        verify_token secret now t1 = verify_token secret now t2) := by
  have hexp : t1.payload.exp ≤ now → verify_token secret now t1 = none := by
    intro h
    unfold verify_token
    by_cases hs : t1.sig_secret ≠ secret
    · rw [if_pos hs]
    · rw [if_neg hs, if_pos h]
  have htam : t2.sig_secret ≠ secret → verify_token secret now t2 = none := by
    intro h
    unfold verify_token
    rw [if_pos h]
  refine ⟨?_, hexp, htam, fun h1 h2 => (hexp h1).trans (htam h2).symm⟩
  intro hs hlt
  unfold verify_token
  rw [if_neg (not_not_intro hs), if_neg (by omega)]

/-- C8 witness: a concrete expired token and a concrete tampered token both
verify to `None`. -/
theorem C8_witness :
    verify_token "s" 100
        ⟨{ user_id := "u1", slack_user_id := "U1", email := none, roles := [],
           permissions := [], iat := 0, exp := 50, jti := "a" }, "s"⟩
      = verify_token "s" 100
        ⟨{ user_id := "u1", slack_user_id := "U1", email := none, roles := [],
           permissions := [], iat := 0, exp := 20000, jti := "b" }, "evil"⟩ :=
  (C8_verify_failures_collapse "s" 100
      ⟨{ user_id := "u1", slack_user_id := "U1", email := none, roles := [],
         permissions := [], iat := 0, exp := 50, jti := "a" }, "s"⟩
      ⟨{ user_id := "u1", slack_user_id := "U1", email := none, roles := [],
         permissions := [], iat := 0, exp := 20000, jti := "b" }, "evil"⟩).2.2.2
    (by decide) (by decide)

/-- C8 counterexample: the claim as stated — that for *some* pair of inputs,
one expired and one tampered, the caller can tell the two failure cases
apart from the return value alone — is false: with secret "s" at time 100,
every expired token and every tampered token return the identical value
`None`. -/
theorem C8_counterexample :
    ¬ ∃ (t1 t2 : SignedToken), t1.sig_secret = "s" ∧ t1.payload.exp ≤ (100 : Int)
      ∧ t2.sig_secret ≠ "s"
      ∧ verify_token "s" 100 t1 ≠ verify_token "s" 100 t2 := by
  rintro ⟨t1, t2, h1, h2, h3, hne⟩
  apply hne
  unfold verify_token
  rw [if_pos h3, if_neg (not_not_intro h1), if_pos h2]

/-- C9 (amended): `authenticate_user` returns `None` exactly when no
mapping hash exists for the external id (equivalently, `HGETALL` comes back
empty).  The stored mapping carries no activity flag that the code reads —
there is only one failure cause, and any existing mapping authenticates,
whatever fields it holds. -/
theorem C9_none_iff_no_mapping (store : List (String × List (String × String)))
    (sid : String) :
    authenticate_user store sid = none ↔
      hgetall store ("user_mapping:" ++ sid) = [] := by
  unfold authenticate_user get_mapping
  by_cases h : (hgetall store ("user_mapping:" ++ sid)).isEmpty
  · rw [if_pos h]
    simp [List.isEmpty_iff.mp h]
  · rw [if_neg h]
    simp only [Option.some.injEq]
    constructor
    · intro hc
      cases hc
    · intro hc
      exact absurd (by rw [hc]; rfl) h

/-- C9 witness: the amended iff applied at an empty store. -/
theorem C9_witness : authenticate_user [] "U9" = none :=
  (C9_none_iff_no_mapping [] "U9").mpr rfl

/-- C9 counterexample: a stored mapping that says `is_active: "false"` — the
only way an "inactive mapping" can exist in the store — still authenticates:
the claim's "mapping exists but is inactive ⇒ None" is false, because the
code never reads an activity flag. -/
theorem C9_counterexample :
    hashGet (hgetall
        [("user_mapping:U1",
          [("internal_user_id", "u1"), ("email", ""), ("full_name", ""),
           ("ldap_id", ""), ("roles", "[]"), ("permissions", "[]"),
           ("is_active", "false")])] "user_mapping:U1") "is_active" = some "false"
    ∧ authenticate_user
        [("user_mapping:U1",
          [("internal_user_id", "u1"), ("email", ""), ("full_name", ""),
           ("ldap_id", ""), ("roles", "[]"), ("permissions", "[]"),
           ("is_active", "false")])] "U1" ≠ none := by decide
